import Mathlib

/-!
Verification of the hyper transport adapter of the `http-cache` project
(`http-cache-hyper/src/lib.rs`) against its natural-language specification.

The adapter's live request carries an `http::HeaderMap`.  A `HeaderMap` is a
multimap whose iteration yields, for each header name in first-insertion
order, that name's values in insertion order; we model it as an ordered list
of entries, one entry per (lowercased) name, each entry holding the ordered
list of that name's values.  `hmInsertV` and `hmAppendV` below follow
`http::HeaderMap::insert` (replace every value of the name, keep the entry's
position) and `http::HeaderMap::append` (add one more value for the name).
`hmFlatten` is the iteration order.

External dependencies are embedded by their documented semantics:
`url::Url::parse` is a parameter `parseUrl : String → Option String` (its
output string standing for `Url::as_str`), the hyper client is a parameter
`client`, and `http::HeaderValue::to_str` is `toStrBytes`, which succeeds
exactly when every byte is visible ASCII (0x20–0x7E) or horizontal tab —
this is the `is_visible_ascii` check of the `http` crate.
-/

namespace HC

/-- Model of `http::HeaderMap` with values of type `α`: entries in
first-insertion order, one entry per name, values of a name in insertion
order. -/
abbrev HeadersM (α : Type) := List (String × List α)

/-- `http::HeaderMap::append`: keep existing values of `n` and add `v` after
them; a fresh name gets a new entry at the end. -/
def hmAppendV {α : Type} : HeadersM α → String → α → HeadersM α
  | [], n, v => [(n, [v])]
  | (n', vs) :: rest, n, v =>
    if n' = n then (n', vs ++ [v]) :: rest else (n', vs) :: hmAppendV rest n v

/-- `http::HeaderMap::insert`: replace every value of `n` by the single value
`v`, keeping the entry at its position; a fresh name gets a new entry at the
end. -/
def hmInsertV {α : Type} : HeadersM α → String → α → HeadersM α
  | [], n, v => [(n, [v])]
  | (n', vs) :: rest, n, v =>
    if n' = n then (n', [v]) :: rest else (n', vs) :: hmInsertV rest n v

/-- Iteration order of a `HeaderMap`: each entry's values in order, entries in
order. -/
def hmFlatten {α : Type} : HeadersM α → List (String × α)
  | [] => []
  | (n, vs) :: rest => vs.map (fun v => (n, v)) ++ hmFlatten rest

/-- The names of the map, in entry order. -/
def hmNames {α : Type} (m : HeadersM α) : List String := m.map Prod.fst

/-- All values of name `n` (`http::HeaderMap::get_all`); `[]` when absent. -/
def hmGet {α : Type} : HeadersM α → String → List α
  | [], _ => []
  | (n', vs) :: rest, n => if n' = n then vs else hmGet rest n

/-- The structural invariant `http::HeaderMap` maintains: one entry per name
and no empty entry. -/
def hmWF {α : Type} (m : HeadersM α) : Prop :=
  (hmNames m).Nodup ∧ ∀ e ∈ m, e.2 ≠ []

instance hmWF_decidable {α : Type} [DecidableEq α] (m : HeadersM α) :
    Decidable (hmWF m) :=
  inferInstanceAs (Decidable ((hmNames m).Nodup ∧ ∀ e ∈ m, e.2 ≠ []))

/-- Fold `hmAppendV` over an iteration sequence (the copying loops of
`parts` and `remote_fetch`). -/
def hmAppendAll {α : Type} (m : HeadersM α) (l : List (String × α)) : HeadersM α :=
  l.foldl (fun a p => hmAppendV a p.1 p.2) m

/-- Fold `hmInsertV` over an iteration sequence (the loop of
`update_headers`). -/
def hmInsertAll {α : Type} (m : HeadersM α) (l : List (String × α)) : HeadersM α :=
  l.foldl (fun a p => hmInsertV a p.1 p.2) m

/-- The last value carried for name `n` in an iteration sequence. -/
def lastVal? {α : Type} : List (String × α) → String → Option α
  | [], _ => none
  | p :: l, n =>
    match lastVal? l n with
    | some v => some v
    | none => if p.1 = n then some p.2 else none

/-- `http` protocol versions (`http::Version`). -/
inductive Version
  | http09
  | http10
  | http11
  | h2
  | h3
deriving DecidableEq

/-- Modelled from the spec: the caching engine's normalized protocol-version
enumeration (the `HttpVersion` type of the `http-cache` crate, which is not
part of this unit); `remote_fetch` obtains it from the transport version via
`try_into`, which succeeds on each of the five transport versions. -/
inductive HttpVersion
  | v09
  | v10
  | v11
  | v2
  | v3
deriving DecidableEq

/-- Modelled from the spec: conversion of the transport protocol version into
the normalized enumeration (`version.try_into()` in `remote_fetch`). -/
def convertVersion : Version → HttpVersion
  | .http09 => .v09
  | .http10 => .v10
  | .http11 => .v11
  | .h2 => .v2
  | .h3 => .v3

/-- The live request owned by the middleware (`hyper::Request<Bytes>`):
method token, target URI (as a string), protocol version, header multimap,
body bytes. -/
structure Request where
  method : String
  uri : String
  version : Version
  headers : HeadersM String
  body : List UInt8
deriving DecidableEq

/-- The snapshot produced by `parts` (`http::request::Parts`, built from
`Request::builder().uri(..).method(..).version(..).body(())`): the copied
request's body is the empty body `()`, modelled as `[]`. -/
structure Parts where
  method : String
  uri : String
  version : Version
  headers : HeadersM String
  body : List UInt8
deriving DecidableEq

/-- The transport-native response delivered by the hyper client: status,
version, header multimap with raw byte values, and the eventual outcome of
draining its body stream (`hyper::body::to_bytes`), `ε` being the transport
error type. -/
structure TransportResponse (ε : Type) where
  status : Nat
  version : Version
  headers : HeadersM (List UInt8)
  body : Except ε (List UInt8)

/-- The normalized response (`http_cache::HttpResponse`) as constructed at
the end of `remote_fetch`: body bytes, single-valued header mapping (a Rust
`HashMap`, modelled as an association list with at most one entry per name),
status, resolved URL, converted version. -/
structure HttpResponse where
  body : List UInt8
  headers : List (String × String)
  status : Nat
  url : String
  version : HttpVersion
deriving DecidableEq

/-- `http_cache::CacheError` as far as this unit exercises it: `general e`
is the `CacheError::General(anyhow!(e))` wrapping of a transport error
(lines 113 and 127 of the source); `urlParse` and `headerDecode` stand for
the variants the `?` conversions produce for a URL parse failure and a
`HeaderValue::to_str` failure (modelled from the spec's error taxonomy, the
`http-cache` crate itself not being part of this unit). -/
inductive CacheError (ε : Type)
  | general (e : ε)
  | urlParse
  | headerDecode
deriving DecidableEq

/-- Insertion into the Rust `HashMap<String, String>` of `remote_fetch`:
replace the value of an existing key in place, otherwise add the pair. -/
def smInsert : List (String × String) → String → String → List (String × String)
  | [], n, v => [(n, v)]
  | (n', v') :: rest, n, v =>
    if n' = n then (n, v) :: rest else (n', v') :: smInsert rest n v

/-- Lookup in the modelled `HashMap<String, String>`. -/
def smLookup : List (String × String) → String → Option String
  | [], _ => none
  | (n', v') :: rest, n => if n' = n then some v' else smLookup rest n

/-- The byte-acceptance test of `http::HeaderValue::to_str`
(`is_visible_ascii`): visible ASCII 0x20–0x7E, or horizontal tab. -/
def isVisibleAscii (b : UInt8) : Bool :=
  (32 ≤ b.toNat && b.toNat < 127) || b.toNat == 9

/-- `http::HeaderValue::to_str`: yields the value as a string iff every byte
passes `isVisibleAscii`; such bytes are ASCII, so the string is the bytes
read as characters. -/
def toStrBytes (bs : List UInt8) : Option String :=
  if bs.all isVisibleAscii then
    some (String.mk (bs.map (fun b => Char.ofNat b.toNat)))
  else none

/-- The header-normalization loop of `remote_fetch` (lines 115–121): walk the
transport response's headers in iteration order, convert each value with
`to_str` — failing the whole call at the first undecodable value — and
insert name/value into the accumulating `HashMap`. -/
def normalizeHeadersAux (acc : List (String × String)) :
    List (String × List UInt8) → Option (List (String × String))
  | [] => some acc
  | (n, bs) :: rest =>
    match toStrBytes bs with
    | none => none
    | some s => normalizeHeadersAux (smInsert acc n s) rest

/-- The header normalization of `remote_fetch`, starting from the empty
`HashMap`. -/
def normalizeHeaders (l : List (String × List UInt8)) :
    Option (List (String × String)) :=
  normalizeHeadersAux [] l

/-- `HyperMiddleware::is_method_get_head` (lines 53–55). -/
def is_method_get_head (self : Request) : Bool :=
  self.method == "GET" || self.method == "HEAD"

/-- `HyperMiddleware::update_headers` (lines 71–77): for each header of the
given parts, in iteration order, `insert` it into the live request's header
map. -/
def update_headers (self : Request) (p : Parts) : Request :=
  { self with headers := hmInsertAll self.headers (hmFlatten p.headers) }

/-- `HyperMiddleware::force_no_cache` (lines 78–83): `insert` the
`cache-control: no-cache` header (`HeaderValue::from_str("no-cache")` always
succeeds, every byte being visible ASCII). -/
def force_no_cache (self : Request) : Request :=
  { self with headers := hmInsertV self.headers "cache-control" "no-cache" }

/-- `HyperMiddleware::parts` (lines 84–94): build a copied request with the
resolved URL, the live method and version and the empty body `()`, then
`append` every live header in iteration order; `none` when the URI does not
parse as an absolute URL. -/
def parts (parseUrl : String → Option String) (self : Request) : Option Parts :=
  match parseUrl self.uri with
  | none => none
  | some u =>
    some { method := self.method, uri := u, version := self.version,
           headers := hmAppendAll [] (hmFlatten self.headers), body := [] }

/-- The outgoing transport request built inside `remote_fetch` (lines
103–110): resolved URL, live method and version, a clone of the live body,
and every live header `append`ed in iteration order. -/
def outgoingRequest (u : String) (self : Request) : Request :=
  { method := self.method, uri := u, version := self.version,
    headers := hmAppendAll [] (hmFlatten self.headers), body := self.body }

/-- `HyperMiddleware::remote_fetch` (lines 101–137), as a state transformer
on the live request (the Rust method takes `&mut self` but never writes to
`self.req`, so every branch returns `self` unchanged): resolve the URL,
build the outgoing request, submit it (a transport error is wrapped as
`CacheError::General`), normalize the response headers (failing on an
undecodable value), drain the body (a drain error is wrapped as
`CacheError::General`), and assemble the normalized response. -/
def remote_fetch {ε : Type} (parseUrl : String → Option String)
    (client : Request → Except ε (TransportResponse ε)) (self : Request) :
    Except (CacheError ε) HttpResponse × Request :=
  match parseUrl self.uri with
  | none => (.error .urlParse, self)
  | some u =>
    match client (outgoingRequest u self) with
    | .error e => (.error (.general e), self)
    | .ok res =>
      match normalizeHeaders (hmFlatten res.headers) with
      | none => (.error .headerDecode, self)
      | some hs =>
        match res.body with
        | .error e => (.error (.general e), self)
        | .ok b =>
          (.ok { body := b, headers := hs, status := res.status, url := u,
                 version := convertVersion res.version }, self)

/-- A UTF-8 continuation byte, 0x80–0xBF. -/
def isUtf8Cont (b : UInt8) : Bool := 128 ≤ b.toNat && b.toNat ≤ 191

/-- Modelled from the spec: UTF-8 decodability of a byte sequence (RFC 3629
well-formedness), used only to state the spec's "UTF-8-decodable" wording;
no code of this unit decodes UTF-8. -/
def isUtf8 : List UInt8 → Bool
  | [] => true
  | b :: rest =>
    if b.toNat ≤ 127 then isUtf8 rest
    else if 194 ≤ b.toNat && b.toNat ≤ 223 then
      match rest with
      | c :: rest2 => isUtf8Cont c && isUtf8 rest2
      | [] => false
    else if b.toNat == 224 then
      match rest with
      | c :: d :: rest3 =>
        (160 ≤ c.toNat && c.toNat ≤ 191) && (isUtf8Cont d && isUtf8 rest3)
      | _ => false
    else if (225 ≤ b.toNat && b.toNat ≤ 236) || (238 ≤ b.toNat && b.toNat ≤ 239) then
      match rest with
      | c :: d :: rest3 => isUtf8Cont c && (isUtf8Cont d && isUtf8 rest3)
      | _ => false
    else if b.toNat == 237 then
      match rest with
      | c :: d :: rest3 =>
        (128 ≤ c.toNat && c.toNat ≤ 159) && (isUtf8Cont d && isUtf8 rest3)
      | _ => false
    else if b.toNat == 240 then
      match rest with
      | c :: d :: e :: rest4 =>
        (144 ≤ c.toNat && c.toNat ≤ 191) &&
          (isUtf8Cont d && (isUtf8Cont e && isUtf8 rest4))
      | _ => false
    else if 241 ≤ b.toNat && b.toNat ≤ 243 then
      match rest with
      | c :: d :: e :: rest4 =>
        isUtf8Cont c && (isUtf8Cont d && (isUtf8Cont e && isUtf8 rest4))
      | _ => false
    else if b.toNat == 244 then
      match rest with
      | c :: d :: e :: rest4 =>
        (128 ≤ c.toNat && c.toNat ≤ 143) &&
          (isUtf8Cont d && (isUtf8Cont e && isUtf8 rest4))
      | _ => false
    else false

/-- Byte validity of `http::HeaderValue::from_bytes`: printable ASCII or
obs-text (0x80–0xFF), or horizontal tab; every legal header value satisfies
this bytewise. -/
def isValidHeaderByte (b : UInt8) : Bool :=
  (32 ≤ b.toNat && b.toNat != 127) || b.toNat == 9

/-- A sample live request, carrying the spec's round-trip header scenario
`X-A: 1`, `X-A: 2`, `Accept: text/plain` (names lowercased as `HeaderName`
stores them). -/
def sampleReq : Request :=
  { method := "GET", uri := "http://example.com/", version := .http11,
    headers := [("x-a", ["1", "2"]), ("accept", ["text/plain"])],
    body := [104, 105] }

/-- A concrete live request with no headers, used to instantiate the fetch
theorems. -/
def plainReq : Request :=
  { method := "GET", uri := "http://example.com/", version := .http11,
    headers := [], body := [] }

/-- A header value that is UTF-8-decodable (the two bytes of U+00E9) and a
legal `HeaderValue`, but not visible ASCII. -/
def badValue : List UInt8 := [0xC3, 0xA9]

/-- A transport response carrying `badValue` as a header value. -/
def badResp : TransportResponse Unit :=
  { status := 200, version := .http11, headers := [("x-note", [badValue])],
    body := .ok [] }

/-- The spec's fetch scenario response: status 200,
`Content-Type: text/plain`, body `hello`. -/
def helloResp : TransportResponse Unit :=
  { status := 200, version := .http11,
    headers :=
      [("content-type", [[116, 101, 120, 116, 47, 112, 108, 97, 105, 110]])],
    body := .ok [104, 101, 108, 108, 111] }

/-- A sample header set handed to `update_headers`, holding two values for
`x-a` (already on `sampleReq`) and one for `cache-control` (new). -/
def sampleParts : Parts :=
  { method := "GET", uri := "http://example.com/", version := .http11,
    headers := [("x-a", ["9", "10"]), ("cache-control", ["no-store"])],
    body := [] }

/-! Basic lemmas about the header-map model. -/

theorem hmAppendV_not_mem {α : Type} {m : HeadersM α} {n : String} (v : α)
    (h : n ∉ hmNames m) : hmAppendV m n v = m ++ [(n, [v])] := by
  induction m with
  | nil => rfl
  | cons e rest ih =>
    obtain ⟨n', vs⟩ := e
    simp only [hmNames, List.map_cons, List.mem_cons, not_or] at h
    have hne : n' ≠ n := fun hc => h.1 hc.symm
    simp [hmAppendV, hne, ih (by simpa [hmNames] using h.2)]

theorem hmAppendV_last {α : Type} {acc : HeadersM α} {n : String}
    (vs : List α) (v : α) (h : n ∉ hmNames acc) :
    hmAppendV (acc ++ [(n, vs)]) n v = acc ++ [(n, vs ++ [v])] := by
  induction acc with
  | nil => simp [hmAppendV]
  | cons e rest ih =>
    obtain ⟨n', vs'⟩ := e
    simp only [hmNames, List.map_cons, List.mem_cons, not_or] at h
    have hne : n' ≠ n := fun hc => h.1 hc.symm
    simp [hmAppendV, hne, ih (by simpa [hmNames] using h.2)]

theorem hmAppendAll_append {α : Type} (m : HeadersM α)
    (l₁ l₂ : List (String × α)) :
    hmAppendAll m (l₁ ++ l₂) = hmAppendAll (hmAppendAll m l₁) l₂ := by
  simp [hmAppendAll, List.foldl_append]

theorem hmAppendAll_same_name {α : Type} {acc : HeadersM α} {n : String}
    (vs0 vs : List α) (h : n ∉ hmNames acc) :
    hmAppendAll (acc ++ [(n, vs0)]) (vs.map (fun v => (n, v))) =
      acc ++ [(n, vs0 ++ vs)] := by
  induction vs generalizing vs0 with
  | nil => simp [hmAppendAll]
  | cons v vs ih =>
    have step : hmAppendAll (acc ++ [(n, vs0)]) ((n, v) :: vs.map (fun v => (n, v))) =
        hmAppendAll (hmAppendV (acc ++ [(n, vs0)]) n v) (vs.map (fun v => (n, v))) := rfl
    rw [List.map_cons, step, hmAppendV_last vs0 v h, ih (vs0 ++ [v])]
    simp

theorem hmAppendAll_flatten_aux {α : Type} {m : HeadersM α} (hwf : hmWF m) :
    ∀ acc : HeadersM α, (∀ n ∈ hmNames m, n ∉ hmNames acc) →
      hmAppendAll acc (hmFlatten m) = acc ++ m := by
  induction m with
  | nil => intro acc _; simp [hmAppendAll, hmFlatten]
  | cons e rest ih =>
    intro acc hdis
    obtain ⟨n, vs⟩ := e
    obtain ⟨hnd, hne⟩ := hwf
    simp only [hmNames, List.map_cons, List.nodup_cons] at hnd
    have hvs : vs ≠ [] := hne (n, vs) (List.mem_cons_self _ _)
    obtain ⟨v, vs', rfl⟩ := List.exists_cons_of_ne_nil hvs
    have hnacc : n ∉ hmNames acc :=
      hdis n (by simp [hmNames])
    have h1 : hmAppendV acc n v = acc ++ [(n, [v])] := hmAppendV_not_mem v hnacc
    have h2 : hmAppendAll (acc ++ [(n, [v])]) (vs'.map (fun w => (n, w))) =
        acc ++ [(n, v :: vs')] := by
      have := hmAppendAll_same_name [v] vs' hnacc
      simpa using this
    have hwf' : hmWF rest :=
      ⟨hnd.2, fun e he => hne e (List.mem_cons_of_mem _ he)⟩
    have hdis' : ∀ k ∈ hmNames rest, k ∉ hmNames (acc ++ [(n, v :: vs')]) := by
      intro k hk
      simp only [hmNames, List.map_append, List.mem_append, List.map_cons,
        List.mem_cons, not_or] at *
      refine ⟨fun hc => hdis k (Or.inr hk) hc, ?_⟩
      constructor
      · intro hc; exact hnd.1 (hc ▸ hk)
      · simp
    calc hmAppendAll acc (hmFlatten ((n, v :: vs') :: rest))
        = hmAppendAll acc (((v :: vs').map (fun w => (n, w))) ++ hmFlatten rest) := rfl
      _ = hmAppendAll (hmAppendAll acc ((v :: vs').map (fun w => (n, w))))
            (hmFlatten rest) := hmAppendAll_append _ _ _
      _ = hmAppendAll (acc ++ [(n, v :: vs')]) (hmFlatten rest) := by
            have : hmAppendAll acc ((n, v) :: vs'.map (fun w => (n, w))) =
                hmAppendAll (hmAppendV acc n v) (vs'.map (fun w => (n, w))) := rfl
            rw [List.map_cons, this, h1, h2]
      _ = (acc ++ [(n, v :: vs')]) ++ rest := ih hwf' _ hdis'
      _ = acc ++ ((n, v :: vs') :: rest) := by simp

/-- Re-appending a well-formed header map's iteration into an empty map
reconstructs it exactly (the copying loops of `parts` and `remote_fetch`
preserve the map). -/
theorem hmAppendAll_flatten {α : Type} {m : HeadersM α} (hwf : hmWF m) :
    hmAppendAll [] (hmFlatten m) = m := by
  simpa using hmAppendAll_flatten_aux hwf [] (by simp [hmNames])

theorem hmGet_insertV_self {α : Type} (m : HeadersM α) (n : String) (v : α) :
    hmGet (hmInsertV m n v) n = [v] := by
  induction m with
  | nil => simp [hmInsertV, hmGet]
  | cons e rest ih =>
    obtain ⟨n', vs⟩ := e
    by_cases h : n' = n
    · simp [hmInsertV, hmGet, h]
    · simp [hmInsertV, hmGet, h, ih]

theorem hmGet_insertV_ne {α : Type} (m : HeadersM α) {n k : String} (v : α)
    (h : k ≠ n) : hmGet (hmInsertV m n v) k = hmGet m k := by
  induction m with
  | nil => simp [hmInsertV, hmGet, Ne.symm h]
  | cons e rest ih =>
    obtain ⟨n', vs⟩ := e
    by_cases h' : n' = n
    · subst h'
      simp [hmInsertV, hmGet, Ne.symm h]
    · simp only [hmInsertV, if_neg h']
      by_cases h'' : n' = k
      · simp [hmGet, h'']
      · simp [hmGet, h'', ih]

theorem hmNames_insertV {α : Type} (m : HeadersM α) (n : String) (v : α) :
    hmNames (hmInsertV m n v) =
      if n ∈ hmNames m then hmNames m else hmNames m ++ [n] := by
  induction m with
  | nil => simp [hmInsertV, hmNames]
  | cons e rest ih =>
    obtain ⟨n', vs⟩ := e
    by_cases h : n' = n
    · simp [hmInsertV, hmNames, h]
    · have hne : ¬n = n' := fun hc => h hc.symm
      simp only [hmInsertV, if_neg h, hmNames, List.map_cons, List.mem_cons, hne,
        false_or]
      rw [show (hmInsertV rest n v).map Prod.fst = hmNames (hmInsertV rest n v) from rfl,
        show rest.map Prod.fst = hmNames rest from rfl, ih]
      by_cases hm : n ∈ hmNames rest <;> simp [hm]

theorem hmGet_not_mem {α : Type} {m : HeadersM α} {n : String}
    (h : n ∉ hmNames m) : hmGet m n = [] := by
  induction m with
  | nil => rfl
  | cons e rest ih =>
    obtain ⟨n', vs⟩ := e
    simp only [hmNames, List.map_cons, List.mem_cons, not_or] at h
    have : n' ≠ n := fun hc => h.1 hc.symm
    simp [hmGet, this, ih (by simpa [hmNames] using h.2)]

theorem hmWF_insertV {α : Type} {m : HeadersM α} (hwf : hmWF m)
    (n : String) (v : α) : hmWF (hmInsertV m n v) := by
  constructor
  · rw [hmNames_insertV]
    by_cases hm : n ∈ hmNames m
    · simpa [hm] using hwf.1
    · simp only [hm, if_neg, ite_false]
      refine List.Nodup.append hwf.1 (List.nodup_singleton n) ?_
      intro a ha hb
      simp only [List.mem_singleton] at hb
      subst hb
      exact hm ha
  · intro e he
    induction m with
    | nil =>
      simp [hmInsertV] at he
      simp [he]
    | cons e' rest ih =>
      obtain ⟨n', vs⟩ := e'
      by_cases h : n' = n
      · simp only [hmInsertV, if_pos h, List.mem_cons] at he
        rcases he with he | he
        · simp [he]
        · exact hwf.2 e (List.mem_cons_of_mem _ he)
      · simp only [hmInsertV, if_neg h, List.mem_cons] at he
        rcases he with he | he
        · exact hwf.2 e (he ▸ List.mem_cons_self _ _)
        · exact ih ⟨(by simpa [hmNames] using (List.nodup_cons.mp hwf.1).2),
            fun e'' he'' => hwf.2 e'' (List.mem_cons_of_mem _ he'')⟩ he

/-- Under the `HeaderMap` invariant, the occurrences of name `n` in iteration
order are exactly the entry's values. -/
theorem hmFlatten_filter {α : Type} [DecidableEq α] {m : HeadersM α}
    (hnd : (hmNames m).Nodup) (n : String) :
    (hmFlatten m).filter (fun p => p.1 = n) = (hmGet m n).map (fun v => (n, v)) := by
  induction m with
  | nil => rfl
  | cons e rest ih =>
    obtain ⟨n', vs⟩ := e
    simp only [hmNames, List.map_cons, List.nodup_cons] at hnd
    by_cases h : n' = n
    · subst h
      have hrest : (hmFlatten rest).filter (fun p => p.1 = n') = [] := by
        rw [ih hnd.2, hmGet_not_mem (by simpa [hmNames] using hnd.1)]
        rfl
      simp only [hmFlatten, List.filter_append, hrest, List.append_nil, hmGet,
        if_pos rfl, List.filter_map]
      congr 1
      apply List.filter_eq_self.mpr
      intro a _
      simp [Function.comp]
    · simp only [hmFlatten, List.filter_append, hmGet, if_neg h]
      have hhead : (vs.map (fun v => (n', v))).filter (fun p => p.1 = n) = [] := by
        rw [List.filter_map]
        simp [Function.comp, h]
      simp [hhead, ih hnd.2]

theorem hmGet_insertAll {α : Type} (l : List (String × α)) (m : HeadersM α)
    (n : String) :
    hmGet (hmInsertAll m l) n =
      match lastVal? l n with
      | some v => [v]
      | none => hmGet m n := by
  induction l generalizing m with
  | nil => simp [hmInsertAll, lastVal?]
  | cons p l ih =>
    have step : hmInsertAll m (p :: l) = hmInsertAll (hmInsertV m p.1 p.2) l := rfl
    rw [step, ih]
    cases hl : lastVal? l n with
    | some v => simp [lastVal?, hl]
    | none =>
      by_cases hp : p.1 = n
      · simp [lastVal?, hl, hp, hp ▸ hmGet_insertV_self m p.1 p.2]
      · simp [lastVal?, hl, hp, hmGet_insertV_ne m p.2 (Ne.symm hp)]

theorem lastVal?_none_of_not_mem {α : Type} {l : List (String × α)} {n : String}
    (h : ∀ p ∈ l, p.1 ≠ n) : lastVal? l n = none := by
  induction l with
  | nil => rfl
  | cons p l ih =>
    have hl : lastVal? l n = none := ih (fun q hq => h q (List.mem_cons_of_mem _ hq))
    simp [lastVal?, hl, h p (List.mem_cons_self _ _)]

theorem hmNames_mem_insertAll {α : Type} {l : List (String × α)}
    (m : HeadersM α) {n : String} (h : n ∈ hmNames m) :
    n ∈ hmNames (hmInsertAll m l) := by
  induction l generalizing m with
  | nil => exact h
  | cons p l ih =>
    have step : hmInsertAll m (p :: l) = hmInsertAll (hmInsertV m p.1 p.2) l := rfl
    rw [step]
    apply ih
    rw [hmNames_insertV]
    by_cases hp : p.1 ∈ hmNames m <;> simp [hp, h]

theorem mem_hmNames_insertAll {α : Type} {l : List (String × α)}
    (m : HeadersM α) {p : String × α} (h : p ∈ l) :
    p.1 ∈ hmNames (hmInsertAll m l) := by
  induction l generalizing m with
  | nil => cases h
  | cons q l ih =>
    have step : hmInsertAll m (q :: l) = hmInsertAll (hmInsertV m q.1 q.2) l := rfl
    rw [step]
    rcases List.mem_cons.mp h with h | h
    · subst h
      apply hmNames_mem_insertAll
      rw [hmNames_insertV]
      by_cases hp : p.1 ∈ hmNames m <;> simp [hp]
    · exact ih _ h

theorem hmNames_insertAll_stable {α : Type} {l : List (String × α)}
    {m : HeadersM α} (h : ∀ p ∈ l, p.1 ∈ hmNames m) :
    hmNames (hmInsertAll m l) = hmNames m := by
  induction l generalizing m with
  | nil => rfl
  | cons p l ih =>
    have step : hmInsertAll m (p :: l) = hmInsertAll (hmInsertV m p.1 p.2) l := rfl
    have hp : p.1 ∈ hmNames m := h p (List.mem_cons_self _ _)
    have hins : hmNames (hmInsertV m p.1 p.2) = hmNames m := by
      rw [hmNames_insertV]; simp [hp]
    rw [step, ih (by rw [hins]; exact fun q hq => h q (List.mem_cons_of_mem _ hq)),
      hins]

theorem hmWF_insertAll {α : Type} {m : HeadersM α} (hwf : hmWF m)
    (l : List (String × α)) : hmWF (hmInsertAll m l) := by
  induction l generalizing m with
  | nil => exact hwf
  | cons p l ih =>
    have step : hmInsertAll m (p :: l) = hmInsertAll (hmInsertV m p.1 p.2) l := rfl
    rw [step]
    exact ih (hmWF_insertV hwf p.1 p.2)

/-- Two header maps with the same (duplicate-free) name sequence and the same
values at every name are equal. -/
theorem hmExt {α : Type} : ∀ {x y : HeadersM α}, hmNames x = hmNames y →
    (hmNames x).Nodup → (∀ n, hmGet x n = hmGet y n) → x = y := by
  intro x
  induction x with
  | nil =>
    intro y hn _ _
    cases y with
    | nil => rfl
    | cons e ys => simp [hmNames] at hn
  | cons e xs ih =>
    intro y hn hnd hg
    obtain ⟨n, vs⟩ := e
    cases y with
    | nil => simp [hmNames] at hn
    | cons e' ys =>
      obtain ⟨n', ws⟩ := e'
      simp only [hmNames, List.map_cons, List.cons.injEq] at hn
      obtain ⟨rfl, hn2⟩ := hn
      simp only [hmNames, List.map_cons, List.nodup_cons] at hnd
      have hvw : vs = ws := by
        have := hg n
        simpa [hmGet] using this
      have hxs : xs = ys := by
        apply ih hn2 hnd.2
        intro k
        by_cases hk : k = n
        · subst hk
          have h1 : k ∉ hmNames xs := by simpa [hmNames] using hnd.1
          have h2 : k ∉ hmNames ys := by simpa [hmNames, ← hn2] using hnd.1
          rw [hmGet_not_mem h1, hmGet_not_mem h2]
        · have := hg k
          simpa [hmGet, Ne.symm hk] using this
      rw [hvw, hxs]

theorem hmNames_insertV_nodup {α : Type} {m : HeadersM α}
    (hnd : (hmNames m).Nodup) (n : String) (v : α) :
    (hmNames (hmInsertV m n v)).Nodup := by
  rw [hmNames_insertV]
  by_cases hm : n ∈ hmNames m
  · simpa [hm] using hnd
  · simp only [hm, if_neg, ite_false]
    refine List.Nodup.append hnd (List.nodup_singleton n) ?_
    intro a ha hb
    simp only [List.mem_singleton] at hb
    subst hb
    exact hm ha

theorem hmNames_insertAll_nodup {α : Type} {m : HeadersM α}
    (hnd : (hmNames m).Nodup) (l : List (String × α)) :
    (hmNames (hmInsertAll m l)).Nodup := by
  induction l generalizing m with
  | nil => exact hnd
  | cons p l ih =>
    have step : hmInsertAll m (p :: l) = hmInsertAll (hmInsertV m p.1 p.2) l := rfl
    rw [step]
    exact ih (hmNames_insertV_nodup hnd p.1 p.2)

/-- Folding the same insert sequence a second time changes nothing. -/
theorem hmInsertAll_idem {α : Type} {m : HeadersM α}
    (hnd : (hmNames m).Nodup) (l : List (String × α)) :
    hmInsertAll (hmInsertAll m l) l = hmInsertAll m l := by
  have hstable : hmNames (hmInsertAll (hmInsertAll m l) l) = hmNames (hmInsertAll m l) :=
    hmNames_insertAll_stable (fun p hp => mem_hmNames_insertAll m hp)
  refine hmExt hstable ?_ ?_
  · rw [hstable]
    exact hmNames_insertAll_nodup hnd l
  · intro n
    simp only [hmGet_insertAll]
    cases lastVal? l n <;> rfl

theorem lastVal?_eq_none_iff {α : Type} (l : List (String × α)) (n : String) :
    lastVal? l n = none ↔ ∀ p ∈ l, p.1 ≠ n := by
  induction l with
  | nil => simp [lastVal?]
  | cons p l ih =>
    cases hl : lastVal? l n with
    | some v =>
      simp only [lastVal?, hl]
      constructor
      · intro h; cases h
      · intro h
        have := ih.mpr (fun q hq => h q (List.mem_cons_of_mem _ hq))
        rw [this] at hl
        cases hl
    | none =>
      simp only [lastVal?, hl]
      constructor
      · intro h
        intro q hq
        rcases List.mem_cons.mp hq with hq | hq
        · subst hq
          intro hc
          rw [if_pos hc] at h
          cases h
        · exact ih.mp hl q hq
      · intro h
        rw [if_neg (h p (List.mem_cons_self _ _))]

theorem smLookup_insert_self (m : List (String × String)) (n v : String) :
    smLookup (smInsert m n v) n = some v := by
  induction m with
  | nil => simp [smInsert, smLookup]
  | cons e rest ih =>
    obtain ⟨n', v'⟩ := e
    by_cases h : n' = n
    · simp [smInsert, smLookup, h]
    · simp [smInsert, smLookup, h, ih]

theorem smLookup_insert_ne (m : List (String × String)) {n k : String} (v : String)
    (h : k ≠ n) : smLookup (smInsert m n v) k = smLookup m k := by
  induction m with
  | nil => simp [smInsert, smLookup, Ne.symm h]
  | cons e rest ih =>
    obtain ⟨n', v'⟩ := e
    by_cases h' : n' = n
    · subst h'
      simp [smInsert, smLookup, Ne.symm h]
    · simp only [smInsert, if_neg h']
      by_cases h'' : n' = k
      · simp [smLookup, h'']
      · simp [smLookup, h'', ih]

/-- The `HashMap` built by the normalization loop holds, for each name, the
`to_str` image of the last value carried for that name in iteration order. -/
theorem normalizeHeadersAux_lookup {l : List (String × List UInt8)}
    {acc m : List (String × String)} (h : normalizeHeadersAux acc l = some m)
    (n : String) :
    smLookup m n =
      match lastVal? l n with
      | some bs => toStrBytes bs
      | none => smLookup acc n := by
  induction l generalizing acc with
  | nil =>
    simp only [normalizeHeadersAux, Option.some.injEq] at h
    subst h
    rfl
  | cons p l ih =>
    obtain ⟨nm, bs⟩ := p
    simp only [normalizeHeadersAux] at h
    cases hs : toStrBytes bs with
    | none => rw [hs] at h; cases h
    | some s =>
      rw [hs] at h
      have := ih h
      cases hl : lastVal? l n with
      | some bs' => simpa [lastVal?, hl] using this
      | none =>
        simp only [lastVal?, hl] at this ⊢
        by_cases hn : nm = n
        · subst hn
          simpa [smLookup_insert_self, hs] using this
        · simpa [smLookup_insert_ne acc s (Ne.symm hn), hn] using this

/-- The normalization loop fails exactly when some header value in the
iteration fails `to_str`. -/
theorem normalizeHeadersAux_eq_none_iff (l : List (String × List UInt8))
    (acc : List (String × String)) :
    normalizeHeadersAux acc l = none ↔ ∃ p ∈ l, toStrBytes p.2 = none := by
  induction l generalizing acc with
  | nil => simp [normalizeHeadersAux]
  | cons p l ih =>
    obtain ⟨nm, bs⟩ := p
    cases hs : toStrBytes bs with
    | none => simp [normalizeHeadersAux, hs]
    | some s => simp [normalizeHeadersAux, hs, ih]

theorem normalizeHeaders_eq_none_iff (l : List (String × List UInt8)) :
    normalizeHeaders l = none ↔ ∃ p ∈ l, toStrBytes p.2 = none :=
  normalizeHeadersAux_eq_none_iff l []

theorem toStrBytes_eq_none_iff (bs : List UInt8) :
    toStrBytes bs = none ↔ ∃ b ∈ bs, isVisibleAscii b = false := by
  by_cases h : bs.all isVisibleAscii
  · simp only [toStrBytes, if_pos h]
    simp only [List.all_eq_true] at h
    constructor
    · intro hc; cases hc
    · rintro ⟨b, hb, hb'⟩
      rw [h b hb] at hb'
      cases hb'
  · simp only [toStrBytes, if_neg h]
    simp only [List.all_eq_true] at h
    push_neg at h
    obtain ⟨b, hb, hb'⟩ := h
    exact iff_of_true trivial ⟨b, hb, by simpa using hb'⟩


/-! The claims. -/

/-- C1: for every live request whose URI resolves, `parts`
(`snapshot_request_parts`) returns a `Parts` whose header multimap equals the
live request's headers — same names, values, relative order and duplicates,
both as maps and in iteration order — and whose body is empty. -/
theorem spec_C1_snapshot_request_parts (parseUrl : String → Option String)
    (r : Request) (u : String) (hwf : hmWF r.headers)
    (hu : parseUrl r.uri = some u) :
    ∃ p : Parts, parts parseUrl r = some p ∧ p.headers = r.headers ∧
      hmFlatten p.headers = hmFlatten r.headers ∧ p.body = [] := by
  refine ⟨{ method := r.method, uri := u, version := r.version,
            headers := hmAppendAll [] (hmFlatten r.headers), body := [] },
    ?_, ?_, ?_, rfl⟩
  · simp [parts, hu]
  · exact hmAppendAll_flatten hwf
  · rw [hmAppendAll_flatten hwf]

theorem spec_C1_snapshot_request_parts_witness :
    hmWF sampleReq.headers ∧
      ((fun s => some s) sampleReq.uri = some "http://example.com/") ∧
      (∃ p : Parts, parts (fun s => some s) sampleReq = some p ∧
        p.headers = sampleReq.headers ∧
        hmFlatten p.headers = hmFlatten sampleReq.headers ∧ p.body = []) :=
  ⟨by decide, rfl,
    spec_C1_snapshot_request_parts (fun s => some s) sampleReq
      "http://example.com/" (by decide) rfl⟩

/-- C2: the outgoing transport request built inside `remote_fetch` reuses the
live request's method, resolved URL, protocol version and body bytes, and
carries every live header with duplicate names preserved in original
iteration order (append semantics); moreover `remote_fetch` interacts with
the client only through exactly this request. -/
theorem spec_C2_outgoing_request {ε : Type} (parseUrl : String → Option String)
    (r : Request) (u : String) (hwf : hmWF r.headers)
    (hu : parseUrl r.uri = some u) :
    (outgoingRequest u r).method = r.method ∧
    (outgoingRequest u r).uri = u ∧
    (outgoingRequest u r).version = r.version ∧
    (outgoingRequest u r).body = r.body ∧
    (outgoingRequest u r).headers = r.headers ∧
    hmFlatten (outgoingRequest u r).headers = hmFlatten r.headers ∧
    ∀ c₁ c₂ : Request → Except ε (TransportResponse ε),
      c₁ (outgoingRequest u r) = c₂ (outgoingRequest u r) →
      remote_fetch parseUrl c₁ r = remote_fetch parseUrl c₂ r := by
  refine ⟨rfl, rfl, rfl, rfl, hmAppendAll_flatten hwf, ?_, ?_⟩
  · show hmFlatten (hmAppendAll [] (hmFlatten r.headers)) = hmFlatten r.headers
    rw [hmAppendAll_flatten hwf]
  · intro c₁ c₂ hc
    simp [remote_fetch, hu, hc]

theorem spec_C2_outgoing_request_witness :
    hmWF sampleReq.headers ∧
      ((fun s => some s) sampleReq.uri = some "http://example.com/") ∧
      ((outgoingRequest "http://example.com/" sampleReq).method = sampleReq.method ∧
       (outgoingRequest "http://example.com/" sampleReq).uri = "http://example.com/" ∧
       (outgoingRequest "http://example.com/" sampleReq).version = sampleReq.version ∧
       (outgoingRequest "http://example.com/" sampleReq).body = sampleReq.body ∧
       (outgoingRequest "http://example.com/" sampleReq).headers = sampleReq.headers ∧
       hmFlatten (outgoingRequest "http://example.com/" sampleReq).headers =
         hmFlatten sampleReq.headers ∧
       ∀ c₁ c₂ : Request → Except Unit (TransportResponse Unit),
         c₁ (outgoingRequest "http://example.com/" sampleReq) =
           c₂ (outgoingRequest "http://example.com/" sampleReq) →
         remote_fetch (fun s => some s) c₁ sampleReq =
           remote_fetch (fun s => some s) c₂ sampleReq) :=
  ⟨by decide, rfl,
    spec_C2_outgoing_request (fun s => some s) sampleReq "http://example.com/"
      (by decide) rfl⟩

/-- C3: `is_method_get_head` (`is_cacheable_method`) is true exactly on the
methods GET and HEAD. -/
theorem spec_C3_is_cacheable_method (r : Request) :
    is_method_get_head r = true ↔ r.method = "GET" ∨ r.method = "HEAD" := by
  simp [is_method_get_head]

/-- C4: after `force_no_cache`, a snapshot shows exactly one `cache-control`
header, with the literal value `no-cache`, whatever that header held
before. -/
theorem spec_C4_force_no_cache (parseUrl : String → Option String)
    (r : Request) (u : String) (hwf : hmWF r.headers)
    (hu : parseUrl r.uri = some u) :
    ∃ p : Parts, parts parseUrl (force_no_cache r) = some p ∧
      (hmFlatten p.headers).filter (fun q => q.1 = "cache-control") =
        [("cache-control", "no-cache")] := by
  have hwf' : hmWF (hmInsertV r.headers "cache-control" "no-cache") :=
    hmWF_insertV hwf _ _
  refine ⟨{ method := r.method, uri := u, version := r.version,
            headers := hmAppendAll []
              (hmFlatten (hmInsertV r.headers "cache-control" "no-cache")),
            body := [] }, ?_, ?_⟩
  · simp [parts, force_no_cache, hu]
  · show (hmFlatten (hmAppendAll []
        (hmFlatten (hmInsertV r.headers "cache-control" "no-cache")))).filter
        (fun q => q.1 = "cache-control") = [("cache-control", "no-cache")]
    rw [hmAppendAll_flatten hwf', hmFlatten_filter hwf'.1, hmGet_insertV_self]
    rfl

theorem spec_C4_force_no_cache_witness :
    hmWF [("cache-control", ["max-age=600", "public"]), ("x-a", ["1"])] ∧
      (∃ p : Parts,
        parts (fun s => some s)
          (force_no_cache
            { method := "GET", uri := "http://example.com/",
              version := .http11,
              headers := [("cache-control", ["max-age=600", "public"]),
                          ("x-a", ["1"])],
              body := [] }) = some p ∧
        (hmFlatten p.headers).filter (fun q => q.1 = "cache-control") =
          [("cache-control", "no-cache")]) :=
  ⟨by decide,
    spec_C4_force_no_cache (fun s => some s)
      { method := "GET", uri := "http://example.com/", version := .http11,
        headers := [("cache-control", ["max-age=600", "public"]),
                    ("x-a", ["1"])],
        body := [] }
      "http://example.com/" (by decide) rfl⟩

/-- C5: `update_headers` (`apply_response_headers`) is idempotent — applying
the same header set twice equals applying it once — and last write wins per
name: after the call, each name carried by the input shows exactly one
occurrence, holding the input's last value for that name, whatever value the
live request held before. -/
theorem spec_C5_update_headers_idempotent (r : Request) (H : Parts)
    (hwf : hmWF r.headers) :
    update_headers (update_headers r H) H = update_headers r H ∧
    ∀ n v, lastVal? (hmFlatten H.headers) n = some v →
      (hmFlatten (update_headers r H).headers).filter (fun q => q.1 = n) =
        [(n, v)] := by
  constructor
  · simp only [update_headers]
    congr 1
    exact hmInsertAll_idem hwf.1 _
  · intro n v hv
    show (hmFlatten (hmInsertAll r.headers (hmFlatten H.headers))).filter
        (fun q => q.1 = n) = [(n, v)]
    rw [hmFlatten_filter (hmNames_insertAll_nodup hwf.1 _), hmGet_insertAll, hv]
    rfl

theorem spec_C5_update_headers_idempotent_witness :
    hmWF sampleReq.headers ∧
      (update_headers (update_headers sampleReq sampleParts) sampleParts =
          update_headers sampleReq sampleParts ∧
        ∀ n v, lastVal? (hmFlatten sampleParts.headers) n = some v →
          (hmFlatten (update_headers sampleReq sampleParts).headers).filter
              (fun q => q.1 = n) = [(n, v)]) :=
  ⟨by decide, spec_C5_update_headers_idempotent sampleReq sampleParts (by decide)⟩

/-- C6: on a successful round-trip, `remote_fetch` returns a normalized
response whose status, body, URL and converted version come straight from the
transport response and the originally resolved URL, and whose header mapping
is the last-value-wins `to_str` normalization of the transport headers. -/
theorem spec_C6_remote_fetch_success {ε : Type} (parseUrl : String → Option String)
    (client : Request → Except ε (TransportResponse ε)) (r : Request)
    (u : String) (res : TransportResponse ε) (hs : List (String × String))
    (b : List UInt8)
    (hu : parseUrl r.uri = some u)
    (hc : client (outgoingRequest u r) = .ok res)
    (hn : normalizeHeaders (hmFlatten res.headers) = some hs)
    (hb : res.body = .ok b) :
    (remote_fetch parseUrl client r).1 =
      .ok { body := b, headers := hs, status := res.status, url := u,
            version := convertVersion res.version } ∧
    ∀ n, smLookup hs n =
      match lastVal? (hmFlatten res.headers) n with
      | some bs => toStrBytes bs
      | none => none := by
  constructor
  · simp [remote_fetch, hu, hc, hn, hb]
  · intro n
    exact normalizeHeadersAux_lookup hn n

theorem spec_C6_remote_fetch_success_witness :
    ((fun s => some s) plainReq.uri = some "http://example.com/") ∧
      ((fun _ : Request => (Except.ok helloResp : Except Unit (TransportResponse Unit)))
          (outgoingRequest "http://example.com/" plainReq) = .ok helloResp) ∧
      normalizeHeaders (hmFlatten helloResp.headers) =
        some [("content-type", "text/plain")] ∧
      helloResp.body = .ok [104, 101, 108, 108, 111] ∧
      ((remote_fetch (fun s => some s)
            (fun _ => Except.ok helloResp) plainReq).1 =
          .ok { body := [104, 101, 108, 108, 111],
                headers := [("content-type", "text/plain")],
                status := 200, url := "http://example.com/",
                version := convertVersion helloResp.version } ∧
        ∀ n, smLookup [("content-type", "text/plain")] n =
          match lastVal? (hmFlatten helloResp.headers) n with
          | some bs => toStrBytes bs
          | none => none) :=
  ⟨rfl, rfl, by decide, rfl,
    spec_C6_remote_fetch_success (fun s => some s)
      (fun _ => Except.ok helloResp) plainReq "http://example.com/" helloResp
      [("content-type", "text/plain")] [104, 101, 108, 108, 111]
      rfl rfl (by decide) rfl⟩

/-- C7 counterexample: a header value that is UTF-8-decodable (and bytewise a
legal `HeaderValue`) still fails the fetch, because `HeaderValue::to_str`
demands visible ASCII; so "any UTF-8-decodable header value is accepted" is
false of the code. -/
theorem spec_C7_counterexample :
    isUtf8 badValue = true ∧ badValue.all isValidHeaderByte = true ∧
      (remote_fetch (fun s => some s) (fun _ => Except.ok badResp)
          plainReq).1 = .error .headerDecode :=
  ⟨by decide, by decide, rfl⟩

/-- C7 amended: once the URL resolves and the transport call succeeds,
`remote_fetch` fails with the header-decoding error — producing no normalized
response — exactly when some response header value contains a byte that is
not visible ASCII (0x20–0x7E) or tab; values made only of such bytes never
trigger the decoding failure. -/
theorem spec_C7_amended {ε : Type} (parseUrl : String → Option String)
    (client : Request → Except ε (TransportResponse ε)) (r : Request)
    (u : String) (res : TransportResponse ε)
    (hu : parseUrl r.uri = some u)
    (hc : client (outgoingRequest u r) = .ok res) :
    (remote_fetch parseUrl client r).1 = .error .headerDecode ↔
      ∃ p ∈ hmFlatten res.headers, ∃ b ∈ p.2, isVisibleAscii b = false := by
  simp only [remote_fetch, hu, hc]
  cases hnm : normalizeHeaders (hmFlatten res.headers) with
  | none =>
    have hex : ∃ p ∈ hmFlatten res.headers, toStrBytes p.2 = none :=
      (normalizeHeaders_eq_none_iff _).mp hnm
    simp only [toStrBytes_eq_none_iff] at hex
    exact iff_of_true rfl hex
  | some hs =>
    have hno : ¬∃ p ∈ hmFlatten res.headers, ∃ b ∈ p.2, isVisibleAscii b = false := by
      intro hex
      simp only [← toStrBytes_eq_none_iff] at hex
      have h0 := (normalizeHeaders_eq_none_iff (hmFlatten res.headers)).mpr hex
      rw [hnm] at h0
      cases h0
    cases hb : res.body with
    | error e =>
      refine iff_of_false ?_ hno
      intro h
      injection h with h'
      exact CacheError.noConfusion h'
    | ok b =>
      refine iff_of_false ?_ hno
      intro h
      exact Except.noConfusion h

theorem spec_C7_amended_witness :
    ((fun s => some s) plainReq.uri = some "http://example.com/") ∧
      ((fun _ : Request => (Except.ok badResp : Except Unit (TransportResponse Unit)))
          (outgoingRequest "http://example.com/" plainReq) = .ok badResp) ∧
      ((remote_fetch (fun s => some s) (fun _ => Except.ok badResp)
            plainReq).1 = .error .headerDecode ↔
        ∃ p ∈ hmFlatten badResp.headers, ∃ b ∈ p.2, isVisibleAscii b = false) :=
  ⟨rfl, rfl,
    spec_C7_amended (fun s => some s) (fun _ => Except.ok badResp) plainReq
      "http://example.com/" badResp rfl rfl⟩

/-- C8: a transport submission error, and likewise a body-drain error, makes
`remote_fetch` return the single generic `CacheError::General` wrapping of
the original cause, with no normalized response and the live request
untouched; the client is consulted on exactly one request
(`outgoingRequest`), so no retry happens. -/
theorem spec_C8_transport_errors {ε : Type} (parseUrl : String → Option String)
    (r : Request) (u : String) (hu : parseUrl r.uri = some u) :
    (∀ (client : Request → Except ε (TransportResponse ε)) (e : ε),
        client (outgoingRequest u r) = .error e →
        remote_fetch parseUrl client r = (.error (.general e), r)) ∧
    (∀ (client : Request → Except ε (TransportResponse ε))
        (res : TransportResponse ε) (e : ε) (hs : List (String × String)),
        client (outgoingRequest u r) = .ok res →
        normalizeHeaders (hmFlatten res.headers) = some hs →
        res.body = .error e →
        remote_fetch parseUrl client r = (.error (.general e), r)) := by
  constructor
  · intro client e hc
    simp [remote_fetch, hu, hc]
  · intro client res e hs hc hn hb
    simp [remote_fetch, hu, hc, hn, hb]

theorem spec_C8_transport_errors_witness :
    ((fun s => some s) plainReq.uri = some "http://example.com/") ∧
      ((∀ (client : Request → Except String (TransportResponse String)) (e : String),
          client (outgoingRequest "http://example.com/" plainReq) = .error e →
          remote_fetch (fun s => some s) client plainReq =
            (.error (.general e), plainReq)) ∧
        (∀ (client : Request → Except String (TransportResponse String))
            (res : TransportResponse String) (e : String)
            (hs : List (String × String)),
            client (outgoingRequest "http://example.com/" plainReq) = .ok res →
            normalizeHeaders (hmFlatten res.headers) = some hs →
            res.body = .error e →
            remote_fetch (fun s => some s) client plainReq =
              (.error (.general e), plainReq))) :=
  ⟨rfl, spec_C8_transport_errors (fun s => some s) plainReq
    "http://example.com/" rfl⟩

/-- C9: `remote_fetch` never mutates the caller-visible live request: on
every path — URL failure, transport failure, header-decode failure, drain
failure, success — the request state it hands back is the one it received,
field by field. -/
theorem spec_C9_fetch_frame {ε : Type} (parseUrl : String → Option String)
    (client : Request → Except ε (TransportResponse ε)) (r : Request) :
    (remote_fetch parseUrl client r).2 = r ∧
    (remote_fetch parseUrl client r).2.method = r.method ∧
    (remote_fetch parseUrl client r).2.uri = r.uri ∧
    (remote_fetch parseUrl client r).2.version = r.version ∧
    (remote_fetch parseUrl client r).2.headers = r.headers ∧
    (remote_fetch parseUrl client r).2.body = r.body := by
  have h : (remote_fetch parseUrl client r).2 = r := by
    unfold remote_fetch
    repeat' split
    all_goals rfl
  exact ⟨h, by rw [h], by rw [h], by rw [h], by rw [h], by rw [h]⟩

/-- C10: when the header set given to `update_headers` carries several values
for one name, the live request afterwards holds exactly one occurrence of
that name — the last value in the input's iteration order — with every prior
occurrence gone; names the input does not mention keep their occurrences
unchanged. -/
theorem spec_C10_update_headers_duplicates (r : Request) (H : Parts)
    (hwf : hmWF r.headers) :
    (∀ n v, lastVal? (hmFlatten H.headers) n = some v →
      (hmFlatten (update_headers r H).headers).filter (fun q => q.1 = n) =
        [(n, v)]) ∧
    (∀ n, (∀ p ∈ hmFlatten H.headers, p.1 ≠ n) →
      (hmFlatten (update_headers r H).headers).filter (fun q => q.1 = n) =
        (hmFlatten r.headers).filter (fun q => q.1 = n)) := by
  constructor
  · intro n v hv
    show (hmFlatten (hmInsertAll r.headers (hmFlatten H.headers))).filter
        (fun q => q.1 = n) = [(n, v)]
    rw [hmFlatten_filter (hmNames_insertAll_nodup hwf.1 _), hmGet_insertAll, hv]
    rfl
  · intro n hn
    have hnone : lastVal? (hmFlatten H.headers) n = none :=
      (lastVal?_eq_none_iff _ _).mpr hn
    show (hmFlatten (hmInsertAll r.headers (hmFlatten H.headers))).filter
        (fun q => q.1 = n) = (hmFlatten r.headers).filter (fun q => q.1 = n)
    rw [hmFlatten_filter (hmNames_insertAll_nodup hwf.1 _),
      hmFlatten_filter hwf.1, hmGet_insertAll, hnone]

theorem spec_C10_update_headers_duplicates_witness :
    hmWF sampleReq.headers ∧
      ((∀ n v, lastVal? (hmFlatten sampleParts.headers) n = some v →
          (hmFlatten (update_headers sampleReq sampleParts).headers).filter
              (fun q => q.1 = n) = [(n, v)]) ∧
        (∀ n, (∀ p ∈ hmFlatten sampleParts.headers, p.1 ≠ n) →
          (hmFlatten (update_headers sampleReq sampleParts).headers).filter
              (fun q => q.1 = n) =
            (hmFlatten sampleReq.headers).filter (fun q => q.1 = n))) :=
  ⟨by decide, spec_C10_update_headers_duplicates sampleReq sampleParts (by decide)⟩

end HC
